import Mathlib

/-!
Verification of the document segmentation and context-windowing pipeline of
the GeoAIHub extraction repository: a shallow embedding in Lean 4 of
`scripts/locations/text_preparation.py`, `abstract_extractor.py`,
`table_extractor.py` and `text_extractor.py`, followed by theorems about the
embedded code.

Modelling conventions:
* Python strings are `List Char`; Python lists are Lean lists.
* PDF-layout coordinates (floats in the source) are modelled as `ℚ`.
* The tiktoken encoder is abstracted: a text is represented by its token
  sequence (`List Nat`), and chunks are returned as token slices.  A text is
  empty iff its cl100k_base token sequence is empty.
* Python functions that can raise return `Except String`.
* Regular-expression matching (word boundary `\b`, case-insensitive
  alternation of literal phrases) is implemented directly over `List Char`,
  restricted to the ASCII word characters `[A-Za-z0-9_]` that appear in all
  inputs of interest.
-/

/-- Python slice `l[s:e]`. -/
def sliceList {α : Type} (l : List α) (s e : Nat) : List α :=
  (l.drop s).take (e - s)

/-- Python `str.lower()` (ASCII). -/
def lowerStr (s : List Char) : List Char :=
  s.map Char.toLower

/-- Python substring containment `needle in hay`. -/
def containsSub (needle hay : List Char) : Bool :=
  (List.range (hay.length + 1)).any fun i =>
    ((hay.drop i).take needle.length) == needle

/-- A word character for the regex `\b` boundary: `[A-Za-z0-9_]`. -/
def isWordChar (c : Char) : Bool :=
  c.isAlphanum || c == '_'

/-- Whether the character at index `i` (if any) is a word character. -/
def wordAt (t : List Char) (i : Nat) : Bool :=
  match t.get? i with
  | some c => isWordChar c
  | none => false

/-- The regex zero-width assertion `\b` at position `p` of `t`: the
word-character status changes between positions `p-1` and `p`. -/
def boundaryAt (t : List Char) (p : Nat) : Bool :=
  (if p = 0 then false else wordAt t (p - 1)) != wordAt t p

/-- Case-insensitive literal match of `kw` at position `p` of `t`
(re.IGNORECASE compares case-folded characters). -/
def lowerEqAt (t : List Char) (p : Nat) (kw : List Char) : Bool :=
  ((t.drop p).take kw.length).map Char.toLower == kw.map Char.toLower

/-- One attempt of the pattern `\b(?:k1|k2|...)\b` at position `p`:
alternatives are tried in list order (Python regex alternation semantics);
returns the length of the matched keyword. -/
def firstMatchAt (kws : List (List Char)) (t : List Char) (p : Nat) : Option Nat :=
  if boundaryAt t p then
    (kws.find? fun kw => lowerEqAt t p kw && boundaryAt t (p + kw.length)).map List.length
  else none

/-- Scan of `re.finditer`: leftmost matches, continuing after each match
(advancing at least one position on an empty match).  `fuel` bounds the scan. -/
def findMatchesAux (kws : List (List Char)) (t : List Char) : Nat → Nat → List (Nat × Nat)
  | 0, _ => []
  | fuel + 1, p =>
    match firstMatchAt kws t p with
    | some len => (p, p + len) :: findMatchesAux kws t fuel (p + max len 1)
    | none => if t.length ≤ p then [] else findMatchesAux kws t fuel (p + 1)

/-- All matches of the alternation pattern in `t`, as `(start, end)` pairs,
in left-to-right order (Python `re.finditer`). -/
def findMatches (kws : List (List Char)) (t : List Char) : List (Nat × Nat) :=
  findMatchesAux kws t (t.length + 1) 0

/-- Scan of `re.search`: the leftmost match only. -/
def searchFirstAux (kws : List (List Char)) (t : List Char) : Nat → Nat → Option (Nat × Nat)
  | 0, _ => none
  | fuel + 1, p =>
    match firstMatchAt kws t p with
    | some len => some (p, p + len)
    | none => if t.length ≤ p then none else searchFirstAux kws t fuel (p + 1)

/-- The leftmost match of the alternation pattern in `t` (Python `re.search`). -/
def searchFirst (kws : List (List Char)) (t : List Char) : Option (Nat × Nat) :=
  searchFirstAux kws t (t.length + 1) 0

/-! ## text_preparation.py: KeywordContextFinder -/

/-- `KeywordContextFinder` state: the (dead) window field and the keyword
list standing for the compiled alternation pattern, which depends only on
the keywords. -/
structure KeywordContextFinder where
  window : Nat
  keywords : List (List Char)

/-- `KeywordContextFinder.__init__(keywords, window=1200)`: the constructor
parameter is ignored and the window is unconditionally set to 4000. -/
def KeywordContextFinder.init (keywords : List (List Char)) (_wnd : Nat := 1200) :
    KeywordContextFinder :=
  { window := 4000, keywords := keywords }

/-- The merge sweep of `_process_contexts`: expand each match to
`[max(0, start-window), min(len, end+window)]`, extending the current merged
interval while the next window starts at or before its end, flushing it
otherwise. -/
def sweepContexts (w L : Nat) : List (Nat × Nat) → Option (Nat × Nat) → List (Nat × Nat)
  | [], none => []
  | [], some cur => [cur]
  | (s, e) :: rest, cur =>
    let cs := s - w
    let ce := min L (e + w)
    match cur with
    | none => sweepContexts w L rest (some (cs, ce))
    | some (c0, c1) =>
      if cs ≤ c1 then sweepContexts w L rest (some (c0, max c1 ce))
      else (c0, c1) :: sweepContexts w L rest (some (cs, ce))

/-- Python `context.replace("\n", " ")`. -/
def replaceNewlines (t : List Char) : List Char :=
  t.map fun c => if c = '\n' then ' ' else c

/-- `KeywordContextFinder._process_contexts`: slice the merged intervals out
of the text, replace newlines by spaces, and join them with single spaces. -/
def processContexts (w : Nat) (t : List Char) (ms : List (Nat × Nat)) : List Char :=
  let ctxs := sweepContexts w t.length ms none
  List.intercalate " ".toList (ctxs.map fun c => replaceNewlines (sliceList t c.1 c.2))

/-- `KeywordContextFinder.find_contexts`. -/
def KeywordContextFinder.find_contexts (f : KeywordContextFinder) (text : List Char) :
    List Char :=
  if text = [] then []
  else
    let ms := findMatches f.keywords text
    if ms = [] then [] else processContexts f.window text ms

/-! ## text_preparation.py: split_text_into_balanced_parts -/

/-- Python `int(M * p)` for an integer `M ≥ 0` and a rational `0 ≤ p`:
truncation toward zero, i.e. `⌊M * p⌋`, computed in `ℕ`. -/
def pyIntMul (M : Nat) (p : ℚ) : Nat :=
  (M * p.num.toNat) / p.den

/-- The chunking loop of `split_text_into_balanced_parts`, producing the
token ranges `(start_idx, end_idx)` of the parts.  `fuel` is the number of
remaining loop iterations (initially `num_parts`).  On the final iteration
(`fuel = 1`, i.e. `i = num_parts - 1`) the end index is forced to `total`
and the `end_idx >= total` break always fires, so the loop emits
`[(start, total)]`.  On other iterations `end_idx` is
`min(start + balanced, total)`; the part is appended, the start moves to
`max(0, end_idx - overlap)` (natural subtraction), and the loop breaks once
`end_idx >= total`. -/
def chunkRanges (total balanced ov : Nat) : Nat → Nat → List (Nat × Nat)
  | 0, _ => []
  | 1, start => [(start, total)]
  | fuel + 2, start =>
    let e := min (start + balanced) total
    if total ≤ e then [(start, e)]
    else (start, e) :: chunkRanges total balanced ov (fuel + 1) (e - ov)

/-- `split_text_into_balanced_parts(text)` with the environment-sourced
configuration (`MAX_TOKENS_PER_PART`, `OVERLAP_PERCENTAGE`) made explicit as
parameters.  The text is represented by its token sequence; parts are
returned as token slices (tiktoken encode/decode abstracted away). -/
def split_text_into_balanced_parts (all_tokens : List Nat) (max_tokens_per_part : Int)
    (overlap_percentage : ℚ) : Except String (List (List Nat)) :=
  if all_tokens = [] then .ok []
  else if max_tokens_per_part ≤ 0 then .error "max_tokens_per_part must be positive"
  else if ¬(0 ≤ overlap_percentage ∧ overlap_percentage < 1) then
    .error "overlap_percentage must be between 0 and 1"
  else
    let total := all_tokens.length
    if (total : Int) ≤ max_tokens_per_part then .ok [all_tokens]
    else
      let M := max_tokens_per_part.toNat
      let overlap_tokens := pyIntMul M overlap_percentage
      let effective_tokens_per_part := M - overlap_tokens
      let num_parts := (total - overlap_tokens + effective_tokens_per_part - 1) /
        effective_tokens_per_part
      let balanced_tokens_per_part := (total + (num_parts - 1) * overlap_tokens) / num_parts
      .ok ((chunkRanges total balanced_tokens_per_part overlap_tokens num_parts 0).map
        fun r => sliceList all_tokens r.1 r.2)

/-! ## abstract_extractor.py -/

/-- A fitz word tuple `(x0, y0, x1, y1, text, ...)`; only the first five
components are used by the code. -/
structure Word where
  x0 : ℚ
  y0 : ℚ
  x1 : ℚ
  y1 : ℚ
  text : List Char

/-- The discontinuity test of `bbox_calculator` between consecutive words:
`abs(right_x - left_x) > 20 and abs(left_y - right_y) > 5` where
`right_x, right_y = bbox[i][2], bbox[i][3]` and
`left_x, left_y = bbox[i+1][0], bbox[i+1][1]`. -/
def bboxBreak (a b : Word) : Bool :=
  decide (20 < |a.x1 - b.x0|) && decide (5 < |b.y0 - a.y1|)

/-- Scan of consecutive word pairs, returning the first index at which the
discontinuity test fires. -/
def bboxScan : List Word → Nat → Option Nat
  | a :: b :: rest, i => if bboxBreak a b then some i else bboxScan (b :: rest) (i + 1)
  | _, _ => none

/-- `bbox_calculator(bbox)`: index of the first discontinuity, or
`len(bbox) - 1` (which is `-1` on the empty list) if none. -/
def bbox_calculator (ws : List Word) : Int :=
  match bboxScan ws 0 with
  | some i => (i : Int)
  | none => (ws.length : Int) - 1

/-- Method 1 of `abstract_extractor`: index of the first word containing the
keyword as a substring of its lowercased text
(`next((i for i, word in enumerate(page_text) if keyword in word[4].lower()), None)`). -/
def substrIndex (kw : List Char) : List Word → Option Nat
  | [] => none
  | w :: rest =>
    if containsSub kw (lowerStr w.text) then some 0
    else (substrIndex kw rest).map (· + 1)

/-- Method 2 of `abstract_extractor`: detect the keyword spelled out across
consecutive words (e.g. "a b s t r a c t"); on a match at `i` the start
index is `i + (len(keyword) - 1)`. -/
def spacedKeywordIndex (kw : List Char) (ws : List Word) : Option Nat :=
  ((List.range (ws.length - (kw.length - 1))).find? fun i =>
    (((ws.drop i).take kw.length).map fun w => lowerStr w.text).flatten == kw).map
    fun i => i + (kw.length - 1)

/-- The keyword loop of `abstract_extractor`: for each keyword try method 1
then method 2, stopping at the first success. -/
def findAbstractIndex : List (List Char) → List Word → Option Nat
  | [], _ => none
  | kw :: rest, ws =>
    match substrIndex kw ws with
    | some i => some i
    | none =>
      match spacedKeywordIndex kw ws with
      | some i => some i
      | none => findAbstractIndex rest ws

/-- The keywords tried by `abstract_extractor`, in order. -/
def abstractKeywords : List (List Char) :=
  ["abstract".toList, "resumen".toList]

/-- `abstract_extractor(page_text)`: find the abstract keyword, take the
words after it, cut at the `bbox_calculator` boundary (inclusive) and join
the word texts with spaces; empty string when no keyword is found. -/
def abstract_extractor (page_text : List Word) : List Char :=
  match findAbstractIndex abstractKeywords page_text with
  | some idx =>
    let abstract_text := page_text.drop (idx + 1)
    let abstract_end_idx := bbox_calculator abstract_text
    List.intercalate " ".toList
      ((abstract_text.take (abstract_end_idx + 1).toNat).map Word.text)
  | none => []

/-! ## table_extractor.py -/

/-- An axis-aligned rectangle `(x0, y0, x1, y1)`. -/
abbrev Bbox4 := ℚ × ℚ × ℚ × ℚ

/-- A text span of `page.get_text("dict")`: its text and bounding box. -/
structure TSpan where
  text : List Char
  bbox : Bbox4

/-- A line of a text block, carrying the writing direction `dir`
(`(1,0)` horizontal, `(0,-1)` vertical); the Python code defaults a missing
`dir` key to `(1, 0)`. -/
structure TLine where
  dir : ℚ × ℚ
  spans : List TSpan

/-- A block of `page.get_text("dict")["blocks"]`; `type = 0` is a text
block. -/
structure Block where
  type : Nat
  lines : List TLine

/-- A vector drawing item: `("l", p1, p2)`, `("re", rect)`, or another kind. -/
inductive DrawItem where
  | l : (ℚ × ℚ) → (ℚ × ℚ) → DrawItem
  | re : Bbox4 → DrawItem
  | other : DrawItem

/-- An entry of `page.get_drawings()`. -/
structure Drawing where
  items : List DrawItem

/-- The page data consumed by the extraction code:
`page.get_text("text")`, `page.get_text("dict")["blocks"]`,
`page.get_drawings()`, `page.get_text("words")`, `page.number`, `page.rect`. -/
structure Page where
  rawText : List Char
  blocks : List Block
  drawings : List Drawing
  words : List Word
  number : Nat
  width : ℚ
  height : ℚ

/-- A table anchor `[span_text, span_bbox[1], page.number]`. -/
abbrev Anchor := List Char × ℚ × Nat

/-- The `line_coordinates` variable of `extract_table_data`, which holds
either a list of `[bbox, page_number]` entries or the string `"vertical"`. -/
inductive LineCoords where
  | lines : List (Bbox4 × Nat) → LineCoords
  | vertical : LineCoords

/-- Python truthiness of the `line_coordinates` value: an empty list is
falsy, a non-empty list and the string `"vertical"` are truthy. -/
def LineCoords.truthy : LineCoords → Bool
  | .lines ls => !ls.isEmpty
  | .vertical => true

/-- The `(dir, span)` stream scanned by `extract_table_data`: text blocks
(`type = 0`) flattened in order, each span paired with its line direction. -/
def flatSpans (p : Page) : List ((ℚ × ℚ) × TSpan) :=
  (p.blocks.filter fun b => b.type == 0).flatMap fun b =>
    b.lines.flatMap fun ln => ln.spans.map fun s => (ln.dir, s)

/-- Count of spans on horizontal-direction (`dir = (1, 0)`) lines. -/
def horizontal_count (p : Page) : Nat :=
  (flatSpans p).countP fun x => x.1 == ((1 : ℚ), (0 : ℚ))

/-- Count of spans on vertical-direction (`dir = (0, -1)`) lines. -/
def vertical_count (p : Page) : Nat :=
  (flatSpans p).countP fun x => x.1 == ((0 : ℚ), (-1 : ℚ))

/-- The `table_coordinates` anchors: spans whose text fully matches the
caption pattern, recorded as `[text, bbox[1], page.number]`. -/
def tableAnchors (p : Page) (pat : List Char → Bool) : List Anchor :=
  (flatSpans p).filterMap fun ds =>
    if pat ds.2.text then some (ds.2.text, ds.2.bbox.2.1, p.number) else none

/-- The horizontal rule segments of `extract_table_data`: for each `"re"` or
`"l"` drawing item build a rect, expand it by `(-1,-1,1,1)`, and keep it if
`50 < bbox[1] < 720` and `abs(bbox[1] - bbox[3]) < 10`. -/
def lineSegments (p : Page) : List (Bbox4 × Nat) :=
  (p.drawings.flatMap Drawing.items).filterMap fun it =>
    match it with
    | .l p1 p2 =>
      let bb : Bbox4 := (p1.1 - 1, p1.2 - 1, p2.1 + 1, p2.2 + 1)
      if 50 < bb.2.1 ∧ bb.2.1 < 720 ∧ |bb.2.1 - bb.2.2.2| < 10 then some (bb, p.number)
      else none
    | .re r =>
      let bb : Bbox4 := (r.1 - 1, r.2.1 - 1, r.2.2.1 + 1, r.2.2.2 + 1)
      if 50 < bb.2.1 ∧ bb.2.1 < 720 ∧ |bb.2.1 - bb.2.2.2| < 10 then some (bb, p.number)
      else none
    | .other => none

/-- `extract_table_data(page, pattern)` (the pattern object is represented
by its `fullmatch` predicate).  Skips pages without the substring "Table";
collects anchors and rule segments; replaces the segment list by the marker
`"vertical"` when vertical-direction spans outnumber horizontal ones; and
returns the pair only if both components are truthy. -/
def extract_table_data (p : Page) (pat : List Char → Bool) :
    Option (LineCoords × List Anchor) :=
  if !containsSub "Table".toList p.rawText then none
  else
    let table_coordinates := tableAnchors p pat
    let line_coordinates :=
      if horizontal_count p < vertical_count p then LineCoords.vertical
      else LineCoords.lines (lineSegments p)
    if line_coordinates.truthy && !table_coordinates.isEmpty then
      some (line_coordinates, table_coordinates)
    else none

/-- Build a Python `defaultdict(list)` filled in iteration order: keys in
first-appearance order, values in append order. -/
def insertGrouped {α : Type} (key : Nat) (v : α) : List (Nat × List α) → List (Nat × List α)
  | [] => [(key, [v])]
  | (k, vs) :: rest =>
    if k = key then (k, vs ++ [v]) :: rest else (k, vs) :: insertGrouped key v rest

/-- Group a list by a key, preserving dict insertion-order semantics. -/
def groupByKey {α : Type} (keyOf : α → Nat) (xs : List α) : List (Nat × List α) :=
  xs.foldl (fun acc x => insertGrouped (keyOf x) x acc) []

/-- `defaultdict` lookup: the stored list, or `[]` for a missing key. -/
def lookupD {α : Type} (k : Nat) (m : List (Nat × List α)) : List α :=
  ((m.find? fun e => e.1 == k).map fun e => e.2).getD []

/-- Merge one sorted group of lines sharing (within tolerance) the vertical
position `cy` of the group's first line: `[min x0, cy, max x2, cy]`. -/
def mergeGroup (cy : ℚ) (grp : List Bbox4) : Bbox4 :=
  match grp with
  | [] => (0, cy, 0, cy)
  | g :: gs =>
    (gs.foldl (fun m r => min m r.1) g.1, cy, gs.foldl (fun m r => max m r.2.2.1) g.2.2.1, cy)

/-- The inner merging loop of `group_table_elements` over lines sorted by
`y1`: successive lines within tolerance 2 of the group's first `y` join the
current group; otherwise the group is flushed and a new one starts. -/
def mergeLinesAux (tol : ℚ) (cy : ℚ) (acc : List Bbox4) : List Bbox4 → List Bbox4
  | [] => [mergeGroup cy acc]
  | l :: rest =>
    if |l.2.1 - cy| ≤ tol then mergeLinesAux tol cy (acc ++ [l]) rest
    else mergeGroup cy acc :: mergeLinesAux tol l.2.1 [l] rest

/-- Merge lines on the same horizontal plane (tolerance 2), after sorting by
`y1` (Python `sorted` is stable; so is `mergeSort`). -/
def mergeLinesSorted (lines : List Bbox4) : List Bbox4 :=
  match lines.mergeSort (fun a b => decide (a.2.1 ≤ b.2.1)) with
  | [] => []
  | l :: rest => mergeLinesAux 2 l.2.1 [l] rest

/-- `group_table_elements(line_coordinates, table_coordinates)`: group
anchors and lines by page, merge lines per page, and for each anchor (sorted
by vertical position) collect the merged lines strictly between it and the
next anchor (or infinity, modelled by `none`). -/
def group_table_elements (line_coordinates : List (Bbox4 × Nat))
    (table_coordinates : List Anchor) : List (List Bbox4 × Nat) :=
  let tables_by_page := groupByKey (fun t => t.2.2) table_coordinates
  let merged_by_page :=
    (groupByKey (fun l => l.2) line_coordinates).map fun e =>
      (e.1, mergeLinesSorted (e.2.map fun l => l.1))
  tables_by_page.flatMap fun pt =>
    let page := pt.1
    let sorted_tables := pt.2.mergeSort fun a b => decide (a.2.1 ≤ b.2.1)
    (List.range sorted_tables.length).filterMap fun i =>
      let table := sorted_tables.getD i ([], 0, 0)
      let next_y := (sorted_tables.get? (i + 1)).map fun t => t.2.1
      let bbox := (lookupD page merged_by_page).filter fun l =>
        decide (table.2.1 < l.2.1) &&
          (match next_y with
           | none => true
           | some ny => decide (l.2.1 < ny))
      if bbox.isEmpty then none else some (bbox, page)

/-- Lexicographic order on `(rect[1], rect[0])` used by
`create_table_bounding_boxes`. -/
def rectLe (a b : Bbox4) : Bool :=
  decide (a.2.1 < b.2.1) || (decide (a.2.1 = b.2.1) && decide (a.1 ≤ b.1))

/-- The grouping loop of `create_table_bounding_boxes`: a rect joins the
current group when its `y` is within 3 of the group's last rect's `y`. -/
def groupRectsAux : List Bbox4 → List Bbox4 → List (List Bbox4)
  | acc, [] => [acc]
  | acc, r :: rest =>
    if |r.2.1 - (acc.getLastD (0, 0, 0, 0)).2.1| ≤ 3 then groupRectsAux (acc ++ [r]) rest
    else acc :: groupRectsAux [r] rest

/-- `create_table_bounding_boxes(rectangles)`: per page, sort the rects by
`(y, x)`, group them with tolerance 3, and emit
`[x0, y0, x1, y1, page_num]` built from the first group's first rect and the
last group's first rect.  (Callers only ever pass non-empty per-page rect
lists; the empty case, which would raise `IndexError` in Python, is mapped
to no output.) -/
def create_table_bounding_boxes (rectangles : List (List Bbox4 × Nat)) :
    List (Bbox4 × Nat) :=
  rectangles.filterMap fun pr =>
    match pr.1.mergeSort rectLe with
    | [] => none
    | r0 :: rest =>
      let grouped := groupRectsAux [r0] rest
      match grouped with
      | [] => none
      | g0 :: _ =>
        let gl := grouped.getLastD []
        some (((g0.headD (0, 0, 0, 0)).1, (g0.headD (0, 0, 0, 0)).2.1,
               (g0.headD (0, 0, 0, 0)).2.2.1, (gl.headD (0, 0, 0, 0)).2.1), pr.2)

/-- The result of `extract_tables`: either the full-page marker
`[[0, 0, page.rect.width, page.rect.height], page.number]` produced for
vertical-dominant pages, or a list of table boxes `[x0, y0, x1, y1, page]`. -/
inductive TablesOutput where
  | fullPage : Bbox4 → Nat → TablesOutput
  | boxes : List (Bbox4 × Nat) → TablesOutput

/-- `extract_tables(page, pattern)`.  (The source's `table_data == "Vertical
Page"` comparison is omitted: `extract_table_data` returns a tuple or
`None`, never that string, so the branch is unreachable.) -/
def extract_tables (page : Page) (pat : List Char → Bool) : Option TablesOutput :=
  match extract_table_data page pat with
  | none => none
  | some (LineCoords.vertical, _) =>
    some (.fullPage (0, 0, page.width, page.height) page.number)
  | some (LineCoords.lines ls, tc) =>
    some (.boxes (create_table_bounding_boxes (group_table_elements ls tc)))

/-- A Python `\s` whitespace character (ASCII range). -/
def isSpaceChar (c : Char) : Bool :=
  c == ' ' || c == '\t' || c == '\n' || c == '\r' || c == '\x0b' || c == '\x0c'

/-- `fullmatch` of the pattern `^Table \d[:]?\s*$|^Table \d[:]?\s*` from
`patterns("table_pattern")`: under `fullmatch`, both alternatives accept
exactly "Table ", one digit, an optional colon, then whitespace to the end. -/
def tableCaption (s : List Char) : Bool :=
  match s with
  | 'T' :: 'a' :: 'b' :: 'l' :: 'e' :: ' ' :: d :: rest =>
    d.isDigit &&
      (match rest with
       | ':' :: sp => sp.all isSpaceChar
       | sp => sp.all isSpaceChar)
  | _ => false

/-! ## text_extractor.py -/

/-- Decidable equality for `Except`, used to state equations about fallible
functions. -/
instance exceptDecEq {ε α : Type} [DecidableEq ε] [DecidableEq α] :
    DecidableEq (Except ε α) := fun x y =>
  match x, y with
  | .ok a, .ok b =>
    if h : a = b then .isTrue (by rw [h]) else .isFalse fun hh => h (by injection hh)
  | .error a, .error b =>
    if h : a = b then .isTrue (by rw [h]) else .isFalse fun hh => h (by injection hh)
  | .ok _, .error _ => .isFalse fun hh => Except.noConfusion hh
  | .error _, .ok _ => .isFalse fun hh => Except.noConfusion hh

/-- An element of the Python value iterated by `is_word_inside_any_table`:
a list whose first four items are numbers (a table box), or an `int` (as in
the malformed `[[0, 0, w, h], page.number]` full-page marker), which is not
subscriptable. -/
inductive TEntry where
  | box : ℚ → ℚ → ℚ → ℚ → TEntry
  | num : Nat → TEntry

/-- The `tables` value passed to `process_page_with_tables`, as the list
Python iterates over. -/
def tablesAsEntries : TablesOutput → List TEntry
  | .fullPage bb n => [.box bb.1 bb.2.1 bb.2.2.1 bb.2.2.2, .num n]
  | .boxes bs => bs.map fun b => .box b.1.1 b.1.2.1 b.1.2.2.1 b.1.2.2.2

/-- Python truthiness of the `extract_tables` result (`None` and the empty
list are falsy). -/
def tablesTruthy : Option TablesOutput → Bool
  | none => false
  | some (.fullPage _ _) => true
  | some (.boxes bs) => !bs.isEmpty

/-- `is_word_inside_any_table(word, tables)`: strict containment of the
word's box in some table box.  Reaching an `int` entry raises `TypeError`
("int is not subscriptable"), modelled as an error. -/
def is_word_inside_any_table (word : Word) : List TEntry → Except String Bool
  | [] => .ok false
  | .box a b c d :: rest =>
    if word.x0 > a ∧ word.y0 > b ∧ word.x1 < c ∧ word.y1 < d then .ok true
    else is_word_inside_any_table word rest
  | .num _ :: _ => .error "TypeError: int object is not subscriptable"

/-- `process_page_with_tables(page_text, tables, min_y, max_y)`: keep the
text of words that are not inside any table and whose `y0` lies strictly
between the margins (Python short-circuits on the containment test first). -/
def process_page_with_tables (page_text : List Word) (tables : List TEntry)
    (min_y max_y : ℚ) : Except String (List (List Char)) :=
  match page_text with
  | [] => .ok []
  | w :: rest => do
    let inside ← is_word_inside_any_table w tables
    let tl ← process_page_with_tables rest tables min_y max_y
    pure (if !inside && decide (min_y < w.y0 ∧ w.y0 < max_y) then w.text :: tl else tl)

/-- `process_page(page, page_text)`: margins at 5% and 95% of the page
height; with truthy extracted tables filter through
`process_page_with_tables`, otherwise keep words inside the margins. -/
def process_page (page : Page) : Except String (List (List Char)) :=
  let extracted_tables := extract_tables page tableCaption
  let min_y := page.height * (5 / 100)
  let max_y := page.height * (95 / 100)
  if tablesTruthy extracted_tables then
    process_page_with_tables page.words
      (tablesAsEntries ((extracted_tables).getD (.boxes []))) min_y max_y
  else
    .ok ((page.words.filter fun w => decide (min_y < w.y0 ∧ w.y0 < max_y)).map Word.text)

/-- The ending keywords of `check_ending_keywords`.  The source stores them
in a Python `set`, whose iteration order is unspecified; since no two of
them can match at the same position, the leftmost match is independent of
the alternation order and a fixed order is faithful. -/
def endingKeywords : List (List Char) :=
  ["acknowledgments".toList, "author contribution".toList,
   "declarations".toList, "references".toList]

/-- `check_ending_keywords(text)`: join the page's word list with spaces,
lowercase it, search for the first word-boundary occurrence of an ending
keyword, and return the joined text truncated at the end of that match
(`None` when there is no match). -/
def check_ending_keywords (text : List (List Char)) : Option (List Char) :=
  let joined := List.intercalate " ".toList text
  let text_lower := joined.map Char.toLower
  match searchFirst endingKeywords text_lower with
  | some se => some (joined.take se.2)
  | none => none

/-- `calculate_ignorable_page_threshold(page_number)`:
`math.floor(page_number - math.log(page_number, 1.9))`, with Python's
float log modelled by the real logarithm. -/
noncomputable def calculate_ignorable_page_threshold (page_number : Nat) : Int :=
  ⌊(page_number : ℝ) - Real.log page_number / Real.log 1.9⌋

/-- `re.sub(r"- ", "", s)`: delete every (non-overlapping, leftmost)
occurrence of a hyphen followed by a space. -/
def removeHyphenSpace : List Char → List Char
  | '-' :: ' ' :: rest => removeHyphenSpace rest
  | c :: rest => c :: removeHyphenSpace rest
  | [] => []

/-- Whether a character list contains four consecutive digits (`\d{4}`
somewhere inside `[^()]*\d{4}[^()]*`). -/
def hasFourDigits : List Char → Bool
  | a :: b :: c :: d :: rest =>
    (a.isDigit && b.isDigit && c.isDigit && d.isDigit) || hasFourDigits (b :: c :: d :: rest)
  | _ => false

/-- `re.sub(r"\([^()]*\d{4}[^()]*\)", "", s)`: remove every parenthesised
group with no nested parentheses whose content has four consecutive digits.
A match starting at `(` extends to the next parenthesis, which must be `)`;
on failure the scan moves one character forward, as the regex engine does.
`fuel` (the remaining length) makes the recursion structural. -/
def removeCitationsAux : Nat → List Char → List Char
  | _, [] => []
  | 0, l => l
  | fuel + 1, '(' :: rest =>
    let inner := rest.takeWhile fun c => c != '(' && c != ')'
    let after := rest.drop inner.length
    (match after with
     | ')' :: tl =>
       if hasFourDigits inner then removeCitationsAux fuel tl
       else '(' :: removeCitationsAux fuel rest
     | _ => '(' :: removeCitationsAux fuel rest)
  | fuel + 1, c :: rest => c :: removeCitationsAux fuel rest

/-- `remove_references(text)`: hyphenation repair then citation removal on
the first element; a non-list or empty input yields `[""]`.  (The body's
`try` never fires: both substitutions are total.) -/
def remove_references (text : List (List Char)) : List (List Char) :=
  if text.isEmpty then ["".toList]
  else
    let cleaned := removeHyphenSpace (text.headD [])
    [removeCitationsAux cleaned.length cleaned]

/-- The contribution of one regular page to `treated_text` in
`extract_text`: nothing when `process_page` raises (the per-page `except`
swallows the error) or when the joined text is empty; otherwise the one
appended `remove_references([text_content])` entry. -/
def page_contribution (p : Page) : List (List (List Char)) :=
  match process_page p with
  | .error _ => []
  | .ok processed =>
    let text_content := List.intercalate " ".toList processed
    if text_content = [] then [] else [remove_references [text_content]]

/-- The page loop of `extract_text` over pages `i, i+1, ...`: below the
threshold a page contributes `page_contribution`; at or beyond it the page
is first processed (exceptions here propagate and abort the document) and
checked for ending keywords; a truthy check result appends the
reference-stripped last page (when non-empty) and stops the whole loop. -/
def extract_loop (th : Int) : List Page → Nat → Except String (List (List (List Char)))
  | [], _ => .ok []
  | p :: rest, i =>
    if th ≤ (i : Int) then
      match process_page p with
      | .error e => .error e
      | .ok processed =>
        match check_ending_keywords processed with
        | some last_useful_page_text =>
          if last_useful_page_text = [] then
            (extract_loop th rest (i + 1)).map fun t => page_contribution p ++ t
          else
            let last_page_no_references := remove_references [last_useful_page_text]
            .ok (if last_page_no_references ≠ [] ∧ last_page_no_references.headD [] ≠ []
              then [last_page_no_references] else [])
        | none => (extract_loop th rest (i + 1)).map fun t => page_contribution p ++ t
    else (extract_loop th rest (i + 1)).map fun t => page_contribution p ++ t

/-- `extract_text(pdf_path)` over the document's pages: empty results for an
empty document; otherwise the abstract from page one and the flattened,
filtered page contributions; any exception escaping the page loop is caught
by the outer handler, which returns two empty strings. -/
noncomputable def extract_text (doc : List Page) : List Char × List Char :=
  match doc with
  | [] => ([], [])
  | p0 :: rest =>
    let th := calculate_ignorable_page_threshold (p0 :: rest).length
    let abstract := abstract_extractor p0.words
    match extract_loop th rest 1 with
    | .error _ => ([], [])
    | .ok treated_text =>
      let valid_elements := treated_text.filterMap fun item =>
        if item ≠ [] ∧ item.headD [] ≠ [] then some (item.headD []) else none
      (abstract, List.intercalate " ".toList valid_elements)

/-! ## Sample data used by witnesses -/

/-- A late page without tables whose body ends in "references". -/
def samplePageRefs : Page :=
  { rawText := "results references".toList
    blocks := []
    drawings := []
    words := [⟨10, 10, 20, 12, "results".toList⟩, ⟨22, 10, 30, 12, "references".toList⟩]
    number := 2
    width := 100
    height := 100 }

/-- A vertical-dominant page: one vertical-direction span matching the table
caption pattern, raw text containing "Table". -/
def samplePageVertical : Page :=
  { rawText := "Table 1".toList
    blocks := [⟨0, [⟨((0 : ℚ), (-1 : ℚ)), [⟨"Table 1:".toList, (5, 5, 10, 10)⟩]⟩]⟩]
    drawings := []
    words := [⟨1, 50, 2, 51, "w".toList⟩]
    number := 3
    width := 100
    height := 200 }

/-- Page-one word list for the abstract-boundary scenario: the word
"Abstract" followed by ten contiguous body words on one text line
(horizontal gaps of 10 units, tops at y = 10, bottoms at y = 12). -/
def cexAbstractWord : Word := ⟨0, 10, 30, 12, "Abstract".toList⟩

/-- The ten body words of the abstract-boundary scenario. -/
def cexBody : List Word :=
  [⟨40, 10, 70, 12, "w1".toList⟩, ⟨80, 10, 110, 12, "w2".toList⟩,
   ⟨120, 10, 150, 12, "w3".toList⟩, ⟨160, 10, 190, 12, "w4".toList⟩,
   ⟨200, 10, 230, 12, "w5".toList⟩, ⟨240, 10, 270, 12, "w6".toList⟩,
   ⟨280, 10, 310, 12, "w7".toList⟩, ⟨320, 10, 350, 12, "w8".toList⟩,
   ⟨360, 10, 390, 12, "w9".toList⟩, ⟨400, 10, 430, 12, "w10".toList⟩]

/-- A next-section word 25 units to the right of the tenth body word but on
the same text line (vertical displacement `|10 - 12| = 2 ≤ 5`). -/
def cexNextFlat : Word := ⟨455, 10, 470, 12, "Next".toList⟩

/-- A next-section word 25 units to the right of the tenth body word and on
a new visual block (vertical displacement `|100 - 12| = 88 > 5`). -/
def cexNextDown : Word := ⟨455, 100, 470, 112, "Next".toList⟩

/-! ## Lemmas about the chunking loop -/

theorem chunkRanges_ne_nil (t b ov fuel start : Nat) :
    chunkRanges t b ov (fuel + 1) start ≠ [] := by
  cases fuel with
  | zero => simp [chunkRanges]
  | succ f =>
    simp only [chunkRanges]
    split <;> simp

theorem chunkRanges_headD_fst (t b ov fuel start : Nat) :
    ((chunkRanges t b ov (fuel + 1) start).headD (0, 0)).1 = start := by
  cases fuel with
  | zero => simp [chunkRanges]
  | succ f =>
    simp only [chunkRanges]
    split <;> simp

theorem chunkRanges_getLastD_snd (t b ov : Nat) :
    ∀ fuel start, ((chunkRanges t b ov (fuel + 1) start).getLastD (0, 0)).2 = t := by
  intro fuel
  induction fuel with
  | zero =>
    intro start
    simp [chunkRanges]
  | succ f ih =>
    intro start
    rw [show f + 1 + 1 = f + 2 from rfl]
    simp only [chunkRanges]
    split
    · rename_i h
      simp
      omega
    · rename_i h
      rw [List.getLastD_cons]
      have hne := chunkRanges_ne_nil t b ov f (min (start + b) t - ov)
      cases hcr : chunkRanges t b ov (f + 1) (min (start + b) t - ov) with
      | nil => exact absurd hcr hne
      | cons r rs =>
        have := ih (min (start + b) t - ov)
        rw [hcr] at this
        simpa using this

theorem chunkRanges_chain (t b ov : Nat) :
    ∀ fuel start,
      List.Chain' (fun a c : Nat × Nat => c.1 = a.2 - ov) (chunkRanges t b ov fuel start) := by
  intro fuel
  induction fuel with
  | zero => intro start; simp [chunkRanges]
  | succ f ih =>
    intro start
    cases f with
    | zero => simp [chunkRanges]
    | succ f' =>
      rw [show f' + 1 + 1 = f' + 2 from rfl]
      simp only [chunkRanges]
      split
      · simp
      · apply List.Chain'.cons' (ih _)
        intro y hy
        have hne := chunkRanges_ne_nil t b ov f' (min (start + b) t - ov)
        cases hcr : chunkRanges t b ov (f' + 1) (min (start + b) t - ov) with
        | nil => exact absurd hcr hne
        | cons r rs =>
          rw [hcr] at hy
          simp only [List.head?_cons, Option.mem_def, Option.some.injEq] at hy
          subst hy
          have := chunkRanges_headD_fst t b ov f' (min (start + b) t - ov)
          rw [hcr] at this
          simpa using this

theorem chunkRanges_cover (t b ov : Nat) :
    ∀ fuel start k, start ≤ k → k < t →
      ∃ r ∈ chunkRanges t b ov (fuel + 1) start, r.1 ≤ k ∧ k < r.2 := by
  intro fuel
  induction fuel with
  | zero =>
    intro start k hsk hkt
    refine ⟨(start, t), ?_, hsk, hkt⟩
    simp [chunkRanges]
  | succ f ih =>
    intro start k hsk hkt
    rw [show f + 1 + 1 = f + 2 from rfl]
    simp only [chunkRanges]
    split
    · rename_i h
      exact ⟨(start, min (start + b) t), by simp, hsk, by omega⟩
    · rename_i h
      by_cases hk : k < min (start + b) t
      · exact ⟨(start, min (start + b) t), by simp, hsk, hk⟩
      · obtain ⟨r, hr, h1, h2⟩ := ih (min (start + b) t - ov) k (by omega) hkt
        exact ⟨r, List.mem_cons_of_mem _ hr, h1, h2⟩

theorem chunkRanges_dropLast_size (t b ov : Nat) :
    ∀ fuel start p, p ∈ (chunkRanges t b ov fuel start).dropLast → p.2 - p.1 ≤ b := by
  intro fuel
  induction fuel with
  | zero => intro start p hp; simp [chunkRanges] at hp
  | succ f ih =>
    intro start p hp
    cases f with
    | zero => simp [chunkRanges] at hp
    | succ f' =>
      rw [show f' + 1 + 1 = f' + 2 from rfl] at hp
      simp only [chunkRanges] at hp
      revert hp
      split
      · intro hp; simp at hp
      · rename_i h
        intro hp
        have hne := chunkRanges_ne_nil t b ov f' (min (start + b) t - ov)
        cases hcr : chunkRanges t b ov (f' + 1) (min (start + b) t - ov) with
        | nil => exact absurd hcr hne
        | cons r rs =>
          rw [hcr] at hp
          rw [List.dropLast_cons₂] at hp
          rcases List.mem_cons.mp hp with h1 | h2
          · subst h1; simp; omega
          · have := ih (min (start + b) t - ov) p
            rw [hcr] at this
            exact this h2

theorem pyIntMul_lt (M : Nat) (p : ℚ) (hM : 0 < M) (h1 : p < 1) :
    pyIntMul M p < M := by
  unfold pyIntMul
  have hden : 0 < p.den := p.pos
  have hdenQ : (0 : ℚ) < (p.den : ℚ) := by exact_mod_cast hden
  have hnd : p.num < (p.den : ℤ) := by
    have h2 : (p.num : ℚ) / (p.den : ℚ) < 1 := by rwa [Rat.num_div_den]
    have h3 : (p.num : ℚ) < (p.den : ℚ) := (div_lt_one hdenQ).mp h2
    exact_mod_cast h3
  have h4 : p.num.toNat < p.den := by omega
  rw [Nat.div_lt_iff_lt_mul hden]
  calc M * p.num.toNat < M * p.den := (Nat.mul_lt_mul_left hM).mpr h4
    _ = M * p.den := rfl

theorem pyIntMul_eq_floor (M : Nat) (p : ℚ) (hp : 0 ≤ p) :
    pyIntMul M p = (⌊(M : ℚ) * p⌋).toNat := by
  have hnum : 0 ≤ p.num := Rat.num_nonneg.mpr hp
  have hrw : (M : ℚ) * p = (((M : ℤ) * p.num : ℤ) : ℚ) / ((p.den : ℕ) : ℚ) := by
    conv_lhs => rw [← Rat.num_div_den p]
    push_cast
    ring
  rw [hrw, Rat.floor_intCast_div_natCast]
  have h2 : (M : ℤ) * p.num = ((M * p.num.toNat : ℕ) : ℤ) := by
    push_cast [Int.toNat_of_nonneg hnum]
    ring
  rw [h2, ← Int.natCast_div, Int.toNat_natCast]
  rfl

theorem ceil_div_pos (A eff : Nat) (heff : 0 < eff) (hA : 0 < A) :
    0 < (A + eff - 1) / eff := by
  have h1 : (1 : Nat) ≤ (A + eff - 1) / eff := by
    rw [Nat.le_div_iff_mul_le heff, one_mul]
    omega
  omega

theorem ceil_div_mul_ge (A eff : Nat) (heff : 0 < eff) :
    A ≤ (A + eff - 1) / eff * eff := by
  have h1 : A + eff - 1 < (A + eff - 1) / eff * eff + eff := Nat.lt_div_mul_add heff
  omega

theorem balanced_le (M total ov P : Nat) (hov : ov < M) (htot : M < total)
    (hP : 0 < P) (hPeff : total - ov ≤ P * (M - ov)) :
    (total + (P - 1) * ov) / P ≤ M := by
  rw [Nat.mul_sub] at hPeff
  rw [Nat.sub_mul, one_mul]
  have hovP : ov ≤ P * ov := Nat.le_mul_of_pos_left ov hP
  have hPP : P * ov ≤ P * M := Nat.mul_le_mul_left P (by omega)
  have hmain : total + (P * ov - ov) ≤ M * P := by
    have hc : M * P = P * M := Nat.mul_comm M P
    omega
  calc (total + (P * ov - ov)) / P ≤ M * P / P := Nat.div_le_div_right hmain
    _ = M := Nat.mul_div_cancel M hP

/-! ## Claims C1, C2, C10: the token chunker -/

/-- C1 (amended): for a valid configuration, every chunk produced by
`split_text_into_balanced_parts` except possibly the final one has token
count at most `max_tokens_per_part`.  (The final chunk, which absorbs the
remainder, can exceed the maximum; see the counterexample.) -/
theorem chunk_bound_amended (tokens : List Nat) (maxT : Int) (ovp : ℚ)
    (l : List (List Nat)) (hmax : 0 < maxT) (h0 : 0 ≤ ovp) (h1 : ovp < 1)
    (hsplit : split_text_into_balanced_parts tokens maxT ovp = .ok l) :
    ∀ part ∈ l.dropLast, part.length ≤ maxT.toNat := by
  intro part hpart
  have hovp : ¬¬(0 ≤ ovp ∧ ovp < 1) := not_not_intro ⟨h0, h1⟩
  by_cases htok : tokens = []
  · rw [htok] at hsplit
    simp [split_text_into_balanced_parts] at hsplit
    subst hsplit
    simp at hpart
  · simp only [split_text_into_balanced_parts, if_neg htok,
      if_neg (by omega : ¬ maxT ≤ 0), if_neg hovp] at hsplit
    by_cases hsmall : ((tokens.length : Int) ≤ maxT)
    · rw [if_pos hsmall, Except.ok.injEq] at hsplit
      subst hsplit
      simp at hpart
    · rw [if_neg hsmall, Except.ok.injEq] at hsplit
      subst hsplit
      set M := maxT.toNat with hM_def
      set total := tokens.length with htotal_def
      set OV := pyIntMul M ovp with hOV_def
      set P := (total - OV + (M - OV) - 1) / (M - OV) with hP_def
      set B := (total + (P - 1) * OV) / P with hB_def
      have hMpos : 0 < M := by omega
      have htot : M < total := by omega
      have hOVM : OV < M := pyIntMul_lt M ovp hMpos h1
      have hPpos : 0 < P := ceil_div_pos (total - OV) (M - OV) (by omega) (by omega)
      have hPeff : total - OV ≤ P * (M - OV) := by
        have := ceil_div_mul_ge (total - OV) (M - OV) (by omega)
        rw [hP_def]
        exact this
      have hBM : B ≤ M := balanced_le M total OV P hOVM htot hPpos hPeff
      rw [← List.map_dropLast] at hpart
      obtain ⟨r, hr, rfl⟩ := List.mem_map.mp hpart
      have hsize := chunkRanges_dropLast_size total B OV P 0 r hr
      have hslice : (sliceList tokens r.1 r.2).length ≤ r.2 - r.1 := by
        simp [sliceList]
      omega

/-- C1 counterexample: with max 10 and overlap 0 (a valid configuration) on
a 95-token text, some returned chunk (the final one) has more than 10
tokens, so the claim "every chunk, including the final chunk, has token
count ≤ max" is false. -/
theorem chunk_bound_counterexample :
    (0 : Int) < 10 ∧ (0 : ℚ) ≤ 0 ∧ (0 : ℚ) < 1 ∧ 10 < (List.range 95).length ∧
    ∃ part ∈ (split_text_into_balanced_parts (List.range 95) 10 0).toOption.getD [],
      10 < part.length := by decide

/-- C1 witness: a concrete valid run where the theorem's bound applies. -/
theorem chunk_bound_amended_witness :
    (0 : Int) < 10 ∧ (0 : ℚ) ≤ 0 ∧ (0 : ℚ) < 1 ∧
    split_text_into_balanced_parts (List.range 12) 10 0 =
      .ok [sliceList (List.range 12) 0 6, sliceList (List.range 12) 6 12] ∧
    ∀ part ∈ [sliceList (List.range 12) 0 6, sliceList (List.range 12) 6 12].dropLast,
      part.length ≤ (10 : Int).toNat :=
  ⟨by decide, by decide, by decide, by decide,
    chunk_bound_amended (List.range 12) 10 0 _ (by decide) (by decide) (by decide) (by decide)⟩

/-- C2 (amended): for every non-empty text, an invalid configuration raises
immediately (the max-tokens check runs first); the empty text, however,
returns `[]` before any validation (see the counterexample). -/
theorem chunker_validation_amended (tokens : List Nat) (maxT : Int) (ovp : ℚ)
    (htok : tokens ≠ []) :
    (maxT ≤ 0 →
      split_text_into_balanced_parts tokens maxT ovp =
        .error "max_tokens_per_part must be positive") ∧
    (0 < maxT → ¬(0 ≤ ovp ∧ ovp < 1) →
      split_text_into_balanced_parts tokens maxT ovp =
        .error "overlap_percentage must be between 0 and 1") := by
  constructor
  · intro hm
    simp only [split_text_into_balanced_parts, if_neg htok, if_pos hm]
  · intro hm hov
    simp only [split_text_into_balanced_parts, if_neg htok,
      if_neg (by omega : ¬ maxT ≤ 0), if_pos hov]

/-- C2 counterexample: on the empty text an invalid configuration
(`max_tokens_per_part = -3 ≤ 0`) does not raise: the function returns the
empty list before validating. -/
theorem chunker_validation_counterexample :
    (-3 : Int) ≤ 0 ∧ split_text_into_balanced_parts [] (-3) 0 = .ok [] :=
  ⟨by decide, rfl⟩

/-- C2 witness: both validation errors observed on concrete non-empty
inputs. -/
theorem chunker_validation_amended_witness :
    ([1] : List Nat) ≠ [] ∧ (-3 : Int) ≤ 0 ∧
    split_text_into_balanced_parts [1] (-3) 0 =
      .error "max_tokens_per_part must be positive" ∧
    (0 : Int) < 10 ∧ ¬((0 : ℚ) ≤ 2 ∧ (2 : ℚ) < 1) ∧
    split_text_into_balanced_parts [1] 10 2 =
      .error "overlap_percentage must be between 0 and 1" :=
  ⟨by decide, by decide, (chunker_validation_amended [1] (-3) 0 (by decide)).1 (by decide),
   by decide, by decide, (chunker_validation_amended [1] 10 2 (by decide)).2 (by decide) (by decide)⟩

/-- C10: for a non-empty text and a valid configuration, a text within the
token budget comes back as the single chunk `[text]`; otherwise the chunks'
token ranges start at 0, each subsequent range starts at the previous end
minus the overlap `⌊max · f⌋` (clamped at 0, as the code's `max(0, ·)`
does), the last range ends at the final token, and every token position is
covered by some range. -/
theorem chunk_coverage (tokens : List Nat) (maxT : Int) (ovp : ℚ)
    (htok : tokens ≠ []) (hmax : 0 < maxT) (h0 : 0 ≤ ovp) (h1 : ovp < 1) :
    ((tokens.length : Int) ≤ maxT →
      split_text_into_balanced_parts tokens maxT ovp = .ok [tokens]) ∧
    (maxT < (tokens.length : Int) →
      ∃ rs : List (Nat × Nat),
        split_text_into_balanced_parts tokens maxT ovp =
          .ok (rs.map fun r => sliceList tokens r.1 r.2) ∧
        rs ≠ [] ∧
        (rs.headD (0, 0)).1 = 0 ∧
        (rs.getLastD (0, 0)).2 = tokens.length ∧
        List.Chain' (fun a c => c.1 = a.2 - (⌊(maxT.toNat : ℚ) * ovp⌋).toNat) rs ∧
        ∀ k, k < tokens.length → ∃ r ∈ rs, r.1 ≤ k ∧ k < r.2) := by
  have hovp : ¬¬(0 ≤ ovp ∧ ovp < 1) := not_not_intro ⟨h0, h1⟩
  constructor
  · intro hsmall
    simp only [split_text_into_balanced_parts, if_neg htok,
      if_neg (by omega : ¬ maxT ≤ 0), if_neg hovp, if_pos hsmall]
  · intro hbig
    set M := maxT.toNat with hM_def
    set total := tokens.length with htotal_def
    set OV := pyIntMul M ovp with hOV_def
    set P := (total - OV + (M - OV) - 1) / (M - OV) with hP_def
    set B := (total + (P - 1) * OV) / P with hB_def
    have hMpos : 0 < M := by omega
    have htot : M < total := by omega
    have hOVM : OV < M := pyIntMul_lt M ovp hMpos h1
    have hPpos : 0 < P := ceil_div_pos (total - OV) (M - OV) (by omega) (by omega)
    obtain ⟨P', hP'⟩ := Nat.exists_eq_succ_of_ne_zero (Nat.pos_iff_ne_zero.mp hPpos)
    refine ⟨chunkRanges total B OV P 0, ?_, ?_, ?_, ?_, ?_, ?_⟩
    · simp only [split_text_into_balanced_parts, if_neg htok,
        if_neg (by omega : ¬ maxT ≤ 0), if_neg hovp,
        if_neg (by omega : ¬ (tokens.length : Int) ≤ maxT)]
    · rw [hP']
      exact chunkRanges_ne_nil total B OV P' 0
    · rw [hP']
      exact chunkRanges_headD_fst total B OV P' 0
    · rw [hP']
      exact chunkRanges_getLastD_snd total B OV P' 0
    · rw [← pyIntMul_eq_floor M ovp h0]
      exact chunkRanges_chain total B OV P 0
    · intro k hk
      rw [hP']
      exact chunkRanges_cover total B OV P' 0 k (Nat.zero_le k) hk

/-- C10 witness: a concrete oversized text whose chunk ranges tile the token
sequence. -/
theorem chunk_coverage_witness :
    (10 : Int) < ((List.range 25).length : Int) ∧
    (∃ rs : List (Nat × Nat),
      split_text_into_balanced_parts (List.range 25) 10 0 =
        .ok (rs.map fun r => sliceList (List.range 25) r.1 r.2) ∧
      rs ≠ [] ∧
      (rs.headD (0, 0)).1 = 0 ∧
      (rs.getLastD (0, 0)).2 = (List.range 25).length ∧
      List.Chain' (fun a c => c.1 = a.2 - (⌊((10 : Int).toNat : ℚ) * 0⌋).toNat) rs ∧
      ∀ k, k < (List.range 25).length → ∃ r ∈ rs, r.1 ≤ k ∧ k < r.2) :=
  ⟨by decide,
    (chunk_coverage (List.range 25) 10 0 (by decide) (by decide) (by decide) (by decide)).2
      (by decide)⟩

/-! ## Claims C4, C8: the keyword context windower -/

theorem intercalate_space_single (x : List Char) :
    List.intercalate " ".toList [x] = x := by
  simp [List.intercalate]

theorem intercalate_space_pair (x y : List Char) :
    List.intercalate " ".toList [x, y] = x ++ ' ' :: y := by
  simp [List.intercalate, List.intersperse]

theorem findMatches_on_nil (kws : List (List Char)) :
    (findMatches kws []).length ≤ 1 := by
  unfold findMatches
  simp only [List.length_nil]
  cases h : firstMatchAt kws [] 0 with
  | some len => simp [findMatchesAux, h]
  | none => simp [findMatchesAux, h]

/-- C4: the constructor's window parameter is dead: the window field is
always the fixed constant 4000, and `find_contexts` returns identical output
for any two constructor window arguments. -/
theorem window_parameter_dead (kws : List (List Char)) (w1 w2 : Nat) (text : List Char) :
    (KeywordContextFinder.init kws w1).window = 4000 ∧
    (KeywordContextFinder.init kws w1).find_contexts text =
      (KeywordContextFinder.init kws w2).find_contexts text :=
  ⟨rfl, rfl⟩

/-- C8: with no keyword match `find_contexts` returns the empty string; with
exactly two matches it returns one merged region when the second expanded
window starts at or before the first window's end, and the two regions
joined by a single space otherwise. -/
theorem window_merge_correctness (f : KeywordContextFinder) (text : List Char) :
    (findMatches f.keywords text = [] → f.find_contexts text = []) ∧
    (∀ s1 e1 s2 e2, findMatches f.keywords text = [(s1, e1), (s2, e2)] →
      ((s2 - f.window ≤ min text.length (e1 + f.window) →
        f.find_contexts text =
          replaceNewlines (sliceList text (s1 - f.window)
            (max (min text.length (e1 + f.window)) (min text.length (e2 + f.window))))) ∧
       (min text.length (e1 + f.window) < s2 - f.window →
        f.find_contexts text =
          replaceNewlines (sliceList text (s1 - f.window) (min text.length (e1 + f.window))) ++
            ' ' :: replaceNewlines (sliceList text (s2 - f.window)
              (min text.length (e2 + f.window)))))) := by
  constructor
  · intro h
    by_cases htext : text = []
    · simp [KeywordContextFinder.find_contexts, htext]
    · simp [KeywordContextFinder.find_contexts, htext, h]
  · intro s1 e1 s2 e2 hm
    have htext : text ≠ [] := by
      intro h
      subst h
      have := findMatches_on_nil f.keywords
      rw [hm] at this
      simp at this
    constructor
    · intro hc
      simp only [KeywordContextFinder.find_contexts, if_neg htext, hm]
      simp only [List.cons_ne_nil, if_neg (by simp : ¬([(s1, e1), (s2, e2)] : List (Nat × Nat)) = [])]
      simp only [processContexts, sweepContexts, if_pos hc]
      simp only [List.map_cons, List.map_nil]
      exact intercalate_space_single _
    · intro hc
      simp only [KeywordContextFinder.find_contexts, if_neg htext, hm]
      simp only [List.cons_ne_nil, if_neg (by simp : ¬([(s1, e1), (s2, e2)] : List (Nat × Nat)) = [])]
      simp only [processContexts, sweepContexts, if_neg (by omega : ¬ s2 - f.window ≤ min text.length (e1 + f.window))]
      simp only [List.map_cons, List.map_nil]
      exact intercalate_space_pair _ _

/-- C8 witness: two overlapping windows around two matches of "basin" merge
into one region. -/
theorem window_merge_correctness_witness :
    findMatches (KeywordContextFinder.init ["basin".toList] 1200).keywords
      "basin z basin".toList = [(0, 5), (8, 13)] ∧
    8 - (KeywordContextFinder.init ["basin".toList] 1200).window ≤
      min "basin z basin".toList.length
        (5 + (KeywordContextFinder.init ["basin".toList] 1200).window) ∧
    (KeywordContextFinder.init ["basin".toList] 1200).find_contexts "basin z basin".toList =
      replaceNewlines (sliceList "basin z basin".toList
        (0 - (KeywordContextFinder.init ["basin".toList] 1200).window)
        (max (min "basin z basin".toList.length
                (5 + (KeywordContextFinder.init ["basin".toList] 1200).window))
             (min "basin z basin".toList.length
                (13 + (KeywordContextFinder.init ["basin".toList] 1200).window)))) :=
  ⟨by decide, by decide,
    ((window_merge_correctness (KeywordContextFinder.init ["basin".toList] 1200)
      "basin z basin".toList).2 0 5 8 13 (by decide)).1 (by decide)⟩

/-! ## Claims C9, C3: table filtering -/

theorem is_word_inside_boxes (word : Word) (boxes : List Bbox4) :
    is_word_inside_any_table word
        (boxes.map fun b => TEntry.box b.1 b.2.1 b.2.2.1 b.2.2.2) =
      .ok (boxes.any fun b =>
        decide (b.1 < word.x0 ∧ b.2.1 < word.y0 ∧ word.x1 < b.2.2.1 ∧ word.y1 < b.2.2.2)) := by
  induction boxes with
  | nil => rfl
  | cons b bs ih =>
    simp only [List.map_cons, is_word_inside_any_table, List.any_cons]
    by_cases h : word.x0 > b.1 ∧ word.y0 > b.2.1 ∧ word.x1 < b.2.2.1 ∧ word.y1 < b.2.2.2
    · rw [if_pos h]
      have hd : decide (b.1 < word.x0 ∧ b.2.1 < word.y0 ∧ word.x1 < b.2.2.1 ∧ word.y1 < b.2.2.2)
          = true := by
        simp only [decide_eq_true_eq]
        exact h
      rw [hd, Bool.true_or]
    · rw [if_neg h, ih]
      have hd : decide (b.1 < word.x0 ∧ b.2.1 < word.y0 ∧ word.x1 < b.2.2.1 ∧ word.y1 < b.2.2.2)
          = false := by
        simp only [decide_eq_false_iff_not]
        exact h
      rw [hd, Bool.false_or]

/-- C9: a word passes the page filter iff its `y0` lies strictly between 5%
and 95% of the page height and it is not strictly contained (all four edges
strictly inside) in any table box; in particular a word merely touching or
partially overlapping a table box is retained. -/
theorem page_filter_keep_iff (hgt : ℚ) (ws : List Word) (boxes : List Bbox4) :
    process_page_with_tables ws (boxes.map fun b => TEntry.box b.1 b.2.1 b.2.2.1 b.2.2.2)
        (hgt * (5 / 100)) (hgt * (95 / 100)) =
      .ok ((ws.filter fun w =>
        (!(boxes.any fun b =>
            decide (b.1 < w.x0 ∧ b.2.1 < w.y0 ∧ w.x1 < b.2.2.1 ∧ w.y1 < b.2.2.2))) &&
        decide (hgt * (5 / 100) < w.y0 ∧ w.y0 < hgt * (95 / 100))).map Word.text) := by
  induction ws with
  | nil => rfl
  | cons w rest ih =>
    simp only [process_page_with_tables, is_word_inside_boxes, ih, bind, Except.bind,
      pure, Except.pure, List.filter_cons]
    by_cases hC : ((!(boxes.any fun b =>
        decide (b.1 < w.x0 ∧ b.2.1 < w.y0 ∧ w.x1 < b.2.2.1 ∧ w.y1 < b.2.2.2))) &&
        decide (hgt * (5 / 100) < w.y0 ∧ w.y0 < hgt * (95 / 100))) = true
    · rw [if_pos hC, if_pos hC, List.map_cons]
    · rw [if_neg hC, if_neg hC]

theorem process_fullpage_entries (a b c d : ℚ) (n : Nat) (min_y max_y : ℚ) :
    ∀ ws : List Word,
      process_page_with_tables ws [TEntry.box a b c d, TEntry.num n] min_y max_y = .ok [] ∨
      ∃ msg, process_page_with_tables ws [TEntry.box a b c d, TEntry.num n] min_y max_y =
        .error msg := by
  intro ws
  induction ws with
  | nil => left; rfl
  | cons w rest ih =>
    simp only [process_page_with_tables, is_word_inside_any_table]
    by_cases h : w.x0 > a ∧ w.y0 > b ∧ w.x1 < c ∧ w.y1 < d
    · rw [if_pos h]
      rcases ih with hok | ⟨msg, herr⟩
      · left
        rw [hok]
        simp [bind, Except.bind, pure, Except.pure]
      · right
        refine ⟨msg, ?_⟩
        rw [herr]
        simp [bind, Except.bind]
    · rw [if_neg h]
      right
      exact ⟨_, rfl⟩

/-- C3: on a vertical-dominant page (strictly more vertical-direction than
horizontal-direction spans, at least one table-caption anchor, and the
substring "Table" present), `extract_tables` returns the full-page bounding
box marker, and the page's entire text is then discarded from the document
body: its contribution to `treated_text` is empty (either every word is
strictly inside the full-page box and is filtered out, or the malformed
marker raises `TypeError`, which the per-page handler swallows). -/
theorem vertical_page_discard (p : Page)
    (h1 : containsSub "Table".toList p.rawText = true)
    (h2 : horizontal_count p < vertical_count p)
    (h3 : tableAnchors p tableCaption ≠ []) :
    extract_tables p tableCaption =
      some (.fullPage (0, 0, p.width, p.height) p.number) ∧
    page_contribution p = [] := by
  have hemp : (tableAnchors p tableCaption).isEmpty = false := by
    cases hemp : (tableAnchors p tableCaption).isEmpty with
    | false => rfl
    | true => exact absurd (List.isEmpty_iff.mp hemp) h3
  have hdata : extract_table_data p tableCaption =
      some (LineCoords.vertical, tableAnchors p tableCaption) := by
    unfold extract_table_data
    rw [h1]
    simp [h2, hemp, LineCoords.truthy]
  have hext : extract_tables p tableCaption =
      some (.fullPage (0, 0, p.width, p.height) p.number) := by
    unfold extract_tables
    rw [hdata]
  refine ⟨hext, ?_⟩
  unfold page_contribution process_page
  rw [hext]
  simp only [tablesTruthy, if_true, Option.getD_some, tablesAsEntries]
  rcases process_fullpage_entries 0 0 p.width p.height p.number
      (p.height * (5 / 100)) (p.height * (95 / 100)) p.words with hok | ⟨msg, herr⟩
  · rw [hok]
    simp [List.intercalate]
  · rw [herr]

/-- C3 witness: a concrete vertical-dominant page with a caption anchor. -/
theorem vertical_page_discard_witness :
    containsSub "Table".toList samplePageVertical.rawText = true ∧
    horizontal_count samplePageVertical < vertical_count samplePageVertical ∧
    tableAnchors samplePageVertical tableCaption ≠ [] ∧
    (extract_tables samplePageVertical tableCaption =
      some (.fullPage (0, 0, samplePageVertical.width, samplePageVertical.height)
        samplePageVertical.number) ∧
     page_contribution samplePageVertical = []) :=
  ⟨by decide, by decide, by decide,
    vertical_page_discard samplePageVertical (by decide) (by decide) (by decide)⟩

/-! ## Claim C5: the abstract boundary -/

theorem bboxScan_none : ∀ (l : List Word),
    List.Chain' (fun x y => bboxBreak x y = false) l → ∀ i, bboxScan l i = none := by
  intro l
  induction l with
  | nil => intro _ i; rfl
  | cons a rest ih =>
    intro hchain i
    cases rest with
    | nil => rfl
    | cons b rest2 =>
      rw [List.chain'_cons] at hchain
      simp only [bboxScan, hchain.1, Bool.false_eq_true, if_false]
      exact ih hchain.2 (i + 1)

theorem bboxScan_break_at_last : ∀ (body : List Word) (nxt : Word), body ≠ [] →
    List.Chain' (fun x y => bboxBreak x y = false) body →
    bboxBreak (body.getLastD ⟨0, 0, 0, 0, []⟩) nxt = true →
    ∀ i, bboxScan (body ++ [nxt]) i = some (i + (body.length - 1)) := by
  intro body
  induction body with
  | nil => intro nxt h; exact absurd rfl h
  | cons a rest ih =>
    intro nxt _ hchain hbreak i
    cases rest with
    | nil =>
      simp only [List.getLastD_cons, List.getLastD_nil] at hbreak
      simp [bboxScan, hbreak]
    | cons b rest2 =>
      rw [List.chain'_cons] at hchain
      rw [List.getLastD_cons] at hbreak
      simp only [List.cons_append, bboxScan, hchain.1, Bool.false_eq_true, if_false]
      have h := ih nxt (by simp) hchain.2 hbreak (i + 1)
      have harr : b :: rest2.append [nxt] = (b :: rest2) ++ [nxt] := rfl
      rw [harr, h]
      congr 1
      simp only [List.length_cons]
      omega

/-- C5 (amended): on a page-one word list "Abstract, ten body words, next
word", where no consecutive body pair triggers the boundary test and the
pair (tenth body word, next word) has horizontal gap > 20 AND vertical
displacement > 5, the extractor returns exactly the ten body words joined by
spaces.  (The horizontal gap alone is not sufficient; see the
counterexample.) -/
theorem abstract_boundary_amended (a nxt : Word) (body : List Word)
    (hlen : body.length = 10)
    (ha : containsSub "abstract".toList (lowerStr a.text) = true)
    (hchain : List.Chain' (fun x y => bboxBreak x y = false) body)
    (hbreak : bboxBreak (body.getLastD ⟨0, 0, 0, 0, []⟩) nxt = true) :
    abstract_extractor (a :: (body ++ [nxt])) =
      List.intercalate " ".toList (body.map Word.text) := by
  have hbody : body ≠ [] := by
    intro h
    rw [h] at hlen
    simp at hlen
  have hfind : findAbstractIndex abstractKeywords (a :: (body ++ [nxt])) = some 0 := by
    have ha2 : containsSub ['a', 'b', 's', 't', 'r', 'a', 'c', 't'] (lowerStr a.text) = true := ha
    simp [findAbstractIndex, abstractKeywords, substrIndex, ha2]
  unfold abstract_extractor
  rw [hfind]
  simp only [List.drop_succ_cons, List.drop_zero]
  have hscan := bboxScan_break_at_last body nxt hbody hchain hbreak 0
  unfold bbox_calculator
  rw [hscan, hlen]
  have h10 : (((9 : Nat) : Int) + 1).toNat = 10 := by decide
  simp only [Nat.zero_add, h10]
  rw [← hlen, List.take_left]

theorem bboxBreak_flat (x y : Word) (hx : x.y1 = 12) (hy : y.y0 = 10) :
    bboxBreak x y = false := by
  simp only [bboxBreak, Bool.and_eq_false_iff, decide_eq_false_iff_not]
  right
  rw [hy, hx]
  norm_num

theorem cexBody_chain :
    List.Chain' (fun x y => bboxBreak x y = false) cexBody := by
  simp only [cexBody, List.chain'_cons, List.chain'_singleton, and_true]
  refine ⟨?_, ?_, ?_, ?_, ?_, ?_, ?_, ?_, ?_⟩ <;> exact bboxBreak_flat _ _ rfl rfl

theorem cexFlat_chain :
    List.Chain' (fun x y => bboxBreak x y = false) (cexBody ++ [cexNextFlat]) := by
  simp only [cexBody, cexNextFlat, List.cons_append, List.nil_append, List.chain'_cons,
    List.chain'_singleton, and_true]
  refine ⟨?_, ?_, ?_, ?_, ?_, ?_, ?_, ?_, ?_, ?_⟩ <;> exact bboxBreak_flat _ _ rfl rfl

/-- C5 counterexample: with the horizontal gap to the next-section word
exceeding 20 units but the vertical displacement within 5 units (all words
on one text line), the extractor does NOT stop at the gap: it returns all
eleven words after "Abstract", not the ten body words the claim promises. -/
theorem abstract_boundary_counterexample :
    (20 : ℚ) < |cexNextFlat.x0 - (cexBody.getLastD ⟨0, 0, 0, 0, []⟩).x1| ∧
    abstract_extractor (cexAbstractWord :: (cexBody ++ [cexNextFlat])) =
      "w1 w2 w3 w4 w5 w6 w7 w8 w9 w10 Next".toList ∧
    "w1 w2 w3 w4 w5 w6 w7 w8 w9 w10 Next".toList ≠
      "w1 w2 w3 w4 w5 w6 w7 w8 w9 w10".toList := by
  refine ⟨?_, ?_, by decide⟩
  · show (20 : ℚ) < |(455 : ℚ) - 430|
    norm_num
  · have hfind : findAbstractIndex abstractKeywords
        (cexAbstractWord :: (cexBody ++ [cexNextFlat])) = some 0 := by decide
    have hscan := bboxScan_none (cexBody ++ [cexNextFlat]) cexFlat_chain 0
    unfold abstract_extractor
    rw [hfind]
    simp only [List.drop_succ_cons, List.drop_zero]
    unfold bbox_calculator
    rw [hscan]
    decide

/-- C5 witness: with both the horizontal-gap and the vertical-displacement
conditions met at the boundary, exactly the ten body words come back. -/
theorem abstract_boundary_amended_witness :
    cexBody.length = 10 ∧
    containsSub "abstract".toList (lowerStr cexAbstractWord.text) = true ∧
    List.Chain' (fun x y => bboxBreak x y = false) cexBody ∧
    bboxBreak (cexBody.getLastD ⟨0, 0, 0, 0, []⟩) cexNextDown = true ∧
    abstract_extractor (cexAbstractWord :: (cexBody ++ [cexNextDown])) =
      List.intercalate " ".toList (cexBody.map Word.text) := by
  have hbreak : bboxBreak (cexBody.getLastD ⟨0, 0, 0, 0, []⟩) cexNextDown = true := by
    show bboxBreak ⟨400, 10, 430, 12, "w10".toList⟩ cexNextDown = true
    simp only [cexNextDown, bboxBreak, Bool.and_eq_true, decide_eq_true_eq]
    constructor <;> norm_num
  exact ⟨by decide, by decide, cexBody_chain, hbreak,
    abstract_boundary_amended cexAbstractWord cexNextDown cexBody (by decide) (by decide)
      cexBody_chain hbreak⟩

/-! ## Claims C6, C7: section trimming -/

theorem searchFirstAux_spec (kws : List (List Char)) (t : List Char) :
    ∀ fuel start s e, searchFirstAux kws t fuel start = some (s, e) →
      start ≤ s ∧ s ≤ e ∧
      (∀ q, start ≤ q → q < s → firstMatchAt kws t q = none) ∧
      firstMatchAt kws t s = some (e - s) := by
  intro fuel
  induction fuel with
  | zero =>
    intro start s e h
    simp [searchFirstAux] at h
  | succ f ih =>
    intro start s e h
    simp only [searchFirstAux] at h
    cases hf : firstMatchAt kws t start with
    | some len =>
      rw [hf] at h
      simp only [Option.some.injEq, Prod.mk.injEq] at h
      obtain ⟨rfl, rfl⟩ := h
      exact ⟨le_refl _, by omega, fun q hq1 hq2 => by omega,
        by rw [hf]; congr 1; omega⟩
    | none =>
      rw [hf] at h
      by_cases hlen : t.length ≤ start
      · rw [if_pos hlen] at h
        exact absurd h (by simp)
      · rw [if_neg hlen] at h
        obtain ⟨h1, h2, h3, h4⟩ := ih (start + 1) s e h
        refine ⟨by omega, h2, fun q hq1 hq2 => ?_, h4⟩
        rcases Nat.eq_or_lt_of_le hq1 with heq | hlt
        · rw [← heq]
          exact hf
        · exact h3 q (by omega) hq2

theorem firstMatchAt_some (kws : List (List Char)) (t : List Char) (p len : Nat)
    (h : firstMatchAt kws t p = some len) :
    ∃ kw ∈ kws, kw.length = len ∧ lowerEqAt t p kw = true := by
  unfold firstMatchAt at h
  by_cases hb : boundaryAt t p = true
  · rw [if_pos hb] at h
    obtain ⟨kw, hfind, hlen⟩ := Option.map_eq_some'.mp h
    have hmem := List.mem_of_find?_eq_some hfind
    have hpred := List.find?_some hfind
    rw [Bool.and_eq_true] at hpred
    exact ⟨kw, hmem, hlen, hpred.1⟩
  · rw [if_neg hb] at h
    exact absurd h (by simp)

theorem lowerEqAt_bound (t kw : List Char) (p : Nat) (hkw : kw ≠ [])
    (h : lowerEqAt t p kw = true) : p + kw.length ≤ t.length := by
  unfold lowerEqAt at h
  have heq := eq_of_beq h
  have hlen := congrArg List.length heq
  simp only [List.length_map, List.length_take, List.length_drop] at hlen
  have hkwlen : 0 < kw.length := List.length_pos.mpr hkw
  omega

theorem check_ending_spec (text : List (List Char)) (s e : Nat)
    (h : searchFirst endingKeywords
      ((List.intercalate " ".toList text).map Char.toLower) = some (s, e)) :
    check_ending_keywords text = some ((List.intercalate " ".toList text).take e) ∧
    s < e ∧ e ≤ (List.intercalate " ".toList text).length ∧
    ∀ q < s, firstMatchAt endingKeywords
      ((List.intercalate " ".toList text).map Char.toLower) q = none := by
  unfold searchFirst at h
  obtain ⟨-, hse, hnone, hmatch⟩ := searchFirstAux_spec endingKeywords _ _ 0 s e h
  obtain ⟨kw, hkmem, hklen, hkeq⟩ := firstMatchAt_some _ _ _ _ hmatch
  have hkne : kw ≠ [] := by
    have hall : ∀ k ∈ endingKeywords, k ≠ ([] : List Char) := by decide
    exact hall kw hkmem
  have hkpos : 0 < kw.length := List.length_pos.mpr hkne
  have hb := lowerEqAt_bound _ kw s hkne hkeq
  have hmaplen : ((List.intercalate " ".toList text).map Char.toLower).length =
      (List.intercalate " ".toList text).length := List.length_map _ _
  refine ⟨?_, by omega, by omega, fun q hq => hnone q (Nat.zero_le q) hq⟩
  simp only [check_ending_keywords, searchFirst]
  rw [h]

/-- C7: on a checked page (index at or beyond the threshold) whose processed
text matches an ending keyword, `check_ending_keywords` returns the joined
page text truncated at the end of the earliest match (no keyword matches at
any earlier position), and the loop of `extract_text` is terminal there: its
result does not depend on any subsequent page. -/
theorem ending_keywords_terminal (th : Int) (i : Nat) (p : Page)
    (pr : List (List Char)) (s e : Nat)
    (hth : th ≤ (i : Int))
    (hpp : process_page p = .ok pr)
    (hsearch : searchFirst endingKeywords
      ((List.intercalate " ".toList pr).map Char.toLower) = some (s, e)) :
    check_ending_keywords pr = some ((List.intercalate " ".toList pr).take e) ∧
    (∀ q < s, firstMatchAt endingKeywords
      ((List.intercalate " ".toList pr).map Char.toLower) q = none) ∧
    ∀ rest rest2 : List Page,
      extract_loop th (p :: rest) i = extract_loop th (p :: rest2) i := by
  obtain ⟨hck, hse, hbound, hnone⟩ := check_ending_spec pr s e hsearch
  refine ⟨hck, hnone, ?_⟩
  intro rest rest2
  have hne : (List.intercalate " ".toList pr).take e ≠ [] := by
    intro hnil
    have := congrArg List.length hnil
    simp only [List.length_take, List.length_nil] at this
    omega
  simp only [extract_loop, if_pos hth, hpp, hck, if_neg hne]

theorem process_page_samplePageRefs :
    process_page samplePageRefs = .ok ["results".toList, "references".toList] := by
  have hext : extract_tables samplePageRefs tableCaption = none := by
    have hn : (extract_tables samplePageRefs tableCaption).isNone = true := by decide
    exact Option.isNone_iff_eq_none.mp hn
  unfold process_page
  rw [hext]
  simp only [tablesTruthy, Bool.false_eq_true, if_false]
  simp only [samplePageRefs, List.filter_cons, List.filter_nil]
  have hc : decide ((100 : ℚ) * (5 / 100) < 10 ∧ (10 : ℚ) < 100 * (95 / 100)) = true := by
    rw [decide_eq_true_eq]
    constructor <;> norm_num
  simp only [hc, if_true, List.map_cons, List.map_nil]

/-- C7 witness: a concrete late page ending in "references" truncates there
and makes the loop independent of all later pages. -/
theorem ending_keywords_terminal_witness :
    (1 : Int) ≤ ((1 : Nat) : Int) ∧
    process_page samplePageRefs = .ok ["results".toList, "references".toList] ∧
    searchFirst endingKeywords
      ((List.intercalate " ".toList ["results".toList, "references".toList]).map
        Char.toLower) = some (8, 18) ∧
    (check_ending_keywords ["results".toList, "references".toList] =
      some ((List.intercalate " ".toList ["results".toList, "references".toList]).take 18) ∧
     (∀ q < 8, firstMatchAt endingKeywords
       ((List.intercalate " ".toList ["results".toList, "references".toList]).map
         Char.toLower) q = none) ∧
     ∀ rest rest2 : List Page,
       extract_loop 1 (samplePageRefs :: rest) 1 = extract_loop 1 (samplePageRefs :: rest2) 1) :=
  ⟨by decide, process_page_samplePageRefs, by decide,
    ending_keywords_terminal 1 1 samplePageRefs ["results".toList, "references".toList] 8 18
      (by decide) process_page_samplePageRefs (by decide)⟩

/-- C6: the ignorable-page threshold is `⌊n - log(n, 1.9)⌋`; for a 20-page
document it is 15; below the threshold the page loop takes the regular
branch unconditionally (no ending-keyword check is consulted), and at or
beyond it a page whose processed text triggers the check ends the loop. -/
theorem section_trim_threshold :
    calculate_ignorable_page_threshold 20 = 15 ∧
    (∀ n : ℕ, calculate_ignorable_page_threshold n =
      ⌊(n : ℝ) - Real.log n / Real.log 1.9⌋) ∧
    (∀ (i : Nat) (p : Page) (rest : List Page), (i : Int) < 15 →
      extract_loop 15 (p :: rest) i =
        (extract_loop 15 rest (i + 1)).map fun t => page_contribution p ++ t) ∧
    (∀ (i : Nat) (p : Page) (rest : List Page) (pr : List (List Char)) (lt : List Char),
      15 ≤ (i : Int) → process_page p = .ok pr →
      check_ending_keywords pr = some lt → lt ≠ [] →
      extract_loop 15 (p :: rest) i =
        .ok (if remove_references [lt] ≠ [] ∧ (remove_references [lt]).headD [] ≠ []
          then [remove_references [lt]] else [])) := by
  refine ⟨?_, fun n => rfl, ?_, ?_⟩
  · unfold calculate_ignorable_page_threshold
    have h19 : (0 : ℝ) < Real.log 1.9 := Real.log_pos (by norm_num)
    have h4 : 4 * Real.log 1.9 < Real.log 20 := by
      have hp : Real.log ((1.9 : ℝ) ^ (4 : ℕ)) < Real.log 20 :=
        Real.log_lt_log (by positivity) (by norm_num)
      rw [Real.log_pow] at hp
      push_cast at hp
      linarith
    have h5 : Real.log 20 < 5 * Real.log 1.9 := by
      have hp : Real.log (20 : ℝ) < Real.log ((1.9 : ℝ) ^ (5 : ℕ)) :=
        Real.log_lt_log (by norm_num) (by norm_num)
      rw [Real.log_pow] at hp
      push_cast at hp
      linarith
    have hx1 : Real.log 20 / Real.log 1.9 ≤ 5 := by
      rw [div_le_iff₀ h19]
      linarith
    have hx2 : 4 < Real.log 20 / Real.log 1.9 := by
      rw [lt_div_iff₀ h19]
      linarith
    rw [Int.floor_eq_iff]
    push_cast
    constructor <;> linarith
  · intro i p rest h
    simp only [extract_loop, if_neg (by omega : ¬ (15 : Int) ≤ (i : Int))]
  · intro i p rest pr lt hi hpp hck hlt
    simp only [extract_loop, if_pos hi, hpp, hck, if_neg hlt]

/-- C6 witness: page index 3 of a 20-page document is processed without the
ending check, while index 20 with a "references" page is terminal. -/
theorem section_trim_threshold_witness :
    ((3 : Nat) : Int) < 15 ∧
    extract_loop 15 (samplePageRefs :: []) 3 =
      (extract_loop 15 [] 4).map (fun t => page_contribution samplePageRefs ++ t) ∧
    15 ≤ ((20 : Nat) : Int) ∧
    extract_loop 15 (samplePageRefs :: []) 20 =
      .ok (if remove_references ["results references".toList] ≠ [] ∧
            (remove_references ["results references".toList]).headD [] ≠ []
          then [remove_references ["results references".toList]] else []) :=
  ⟨by decide, section_trim_threshold.2.2.1 3 samplePageRefs [] (by decide),
   by decide,
   section_trim_threshold.2.2.2 20 samplePageRefs []
     ["results".toList, "references".toList] "results references".toList
     (by decide) process_page_samplePageRefs (by decide) (by decide)⟩
